import Mathlib

set_option maxRecDepth 4000

/-!
Verification of the sandrock-translator core (src/sandrock_translator/main.py)
against its natural-language specification.

Strings are embedded as `List Char` (Python `str`), byte strings as `List Nat`
with every element intended below 256 (Python `bytes`).  Python's negative-index
sentinel from `str.find` is embedded as `Option Nat`, and the possibly
non-terminating segmentation loop is embedded with explicit fuel, where a
`none` result means the loop has not finished within the given fuel.
-/

/-- First index of character `c` in a string, embedding Python `str.find`
(`some i` for index `i`, `none` for Python's `-1`). -/
def strFind (c : Char) : List Char → Option Nat
  | [] => none
  | x :: xs => if x = c then some 0 else (strFind c xs).map (· + 1)

/-- Python slice `value[a:b]` for `0 ≤ a` and `0 ≤ b`. -/
def pySlice (s : List Char) (a b : Nat) : List Char := (s.take b).drop a

/-- The delimiter pairs of `SpecialExpressions.split_str`'s default argument. -/
def expressions_delimiters : List (Char × Char) := [('[', ']'), ('{', '}'), ('<', '>')]

/-- `SpecialExpressions.has_special_char` with its default character list
`['[', '{', '<']`: true iff one of the opening delimiters occurs in `value`. -/
def SpecialExpressions.has_special_char (value : List Char) : Bool :=
  ['[', '{', '<'].any (fun c => value.contains c)

/-- The `open_delimiter_positions` dictionary of `split_str`: for each delimiter
pair whose opener occurs in `value`, the first position of that opener. -/
def open_delimiter_positions (value : List Char) : List (Nat × Char × Char) :=
  expressions_delimiters.filterMap
    (fun p => (strFind p.1 value).map (fun i => (i, p.1, p.2)))

/-- The `open_position` computation of `split_str`: minimum of the found opener
positions, starting from `len(value)`. -/
def open_position (value : List Char) : Nat :=
  (open_delimiter_positions value).foldl (fun m e => min m e.1) value.length

/-- The `open_delimiter_positions[open_position]` dictionary lookup of
`split_str` (a failed lookup would be a Python `KeyError`, embedded as `none`;
it cannot occur when `value` has a special character). -/
def delims_at (value : List Char) : Option (Char × Char) :=
  ((open_delimiter_positions value).find? (fun e => e.1 = open_position value)).map
    (fun e => (e.2.1, e.2.2))

/-- The `while True` loop of `SpecialExpressions.split_str`, with fuel.
Each iteration emits the plain text before the earliest opening delimiter (when
nonempty), then the slice `value[open_position : close_position + 1]` where
`close_position` is the first position of the matching closing delimiter in the
WHOLE string (Python `value.find(delimiters[1])`, `-1` when absent), and
continues on `value[close_position + 1:]`.  `none` means the fuel ran out,
i.e. the Python loop has not returned within that many iterations. -/
def split_go : Nat → List Char → Option (List (List Char))
  | 0, _ => none
  | fuel + 1, value =>
    if SpecialExpressions.has_special_char value = false then some [value]
    else
      match delims_at value with
      | none => none
      | some dl =>
        let opos := open_position value
        let head := if 0 < opos then [value.take opos] else []
        let cpos := strFind dl.2 value
        let seg := pySlice value opos (match cpos with | some q => q + 1 | none => 0)
        let value2 := match cpos with | some q => value.drop (q + 1) | none => value
        match split_go fuel value2 with
        | none => none
        | some rest => some (head ++ seg :: rest)

/-- `SpecialExpressions.split_str` with its default delimiter pairs.  Fuel
`value.length + 1` suffices for every terminating run of the Python loop, since
every iteration that does not return consumes at least one character whenever
it finds a closing delimiter, and never terminates otherwise. -/
def SpecialExpressions.split_str (value : List Char) : Option (List (List Char)) :=
  if SpecialExpressions.has_special_char value = false then some [value]
  else split_go (value.length + 1) value

/-- Fuel-indexed certificate that a run of the `split_str` loop is benign:
every iteration either sees no remaining special character, or finds the
matching closing delimiter at or after the earliest opening delimiter.  This
predicate mirrors the loop structure of `split_go` step by step. -/
def wellDelimitedF : Nat → List Char → Bool
  | 0, _ => false
  | fuel + 1, value =>
    if SpecialExpressions.has_special_char value = false then true
    else
      match delims_at value with
      | none => false
      | some dl =>
        match strFind dl.2 value with
        | none => false
        | some q =>
          if open_position value ≤ q then wellDelimitedF fuel (value.drop (q + 1))
          else false

/-- Certificate for a whole `split_str` call (fuel as in `split_str`). -/
def wellDelimited (value : List Char) : Bool := wellDelimitedF (value.length + 1) value

lemma split_go_of_wellDelimitedF : ∀ fuel value, wellDelimitedF fuel value = true →
    ∃ segs, split_go fuel value = some segs ∧ segs.flatten = value := by
  intro fuel
  induction fuel with
  | zero => intro value h; simp [wellDelimitedF] at h
  | succ n ih =>
    intro value h
    by_cases hs : SpecialExpressions.has_special_char value = false
    · refine ⟨[value], ?_, by simp⟩
      simp [split_go, hs]
    · rw [wellDelimitedF, if_neg hs] at h
      cases hd : delims_at value with
      | none => rw [hd] at h; simp at h
      | some dl =>
        rw [hd] at h
        dsimp only at h
        cases hq : strFind dl.2 value with
        | none => rw [hq] at h; simp at h
        | some q =>
          rw [hq] at h
          dsimp only at h
          by_cases hop : open_position value ≤ q
          · rw [if_pos hop] at h
            obtain ⟨rest, hrest, hjoin⟩ := ih (value.drop (q + 1)) h
            refine ⟨(if 0 < open_position value then [value.take (open_position value)] else []) ++
              pySlice value (open_position value) (q + 1) :: rest, ?_, ?_⟩
            · rw [split_go, if_neg hs, hd]
              dsimp only
              rw [hq]
              dsimp only
              rw [hrest]
            · rw [List.flatten_append, List.flatten_cons, hjoin]
              have hslice : (if 0 < open_position value then
                  [value.take (open_position value)] else ([] : List (List Char))).flatten ++
                  pySlice value (open_position value) (q + 1) = value.take (q + 1) := by
                by_cases h0 : 0 < open_position value
                · rw [if_pos h0]
                  rw [List.flatten_cons, List.flatten_nil, List.append_nil]
                  unfold pySlice
                  rw [show value.take (open_position value) =
                    (value.take (q + 1)).take (open_position value) by
                      rw [List.take_take]; congr 1; omega]
                  exact List.take_append_drop _ _
                · rw [if_neg h0]
                  have : open_position value = 0 := by omega
                  simp [pySlice, this]
              rw [← List.append_assoc, hslice, List.take_append_drop]
          · rw [if_neg hop] at h; simp at h

/-- C1 (counterexample): on the input `"]a[b]"`, where a closing delimiter
occurs before the earliest opening delimiter, `split_str` terminates but emits
segments whose concatenation is `"]aa[b]"`, duplicating the character `a`:
the closing-delimiter search starts from the beginning of the string, so the
emitted tag slice is empty while the remainder restarts inside the already
emitted plain prefix. -/
theorem C1_counterexample :
    SpecialExpressions.split_str [']', 'a', '[', 'b', ']'] =
      some [[']', 'a'], [], ['a'], ['[', 'b', ']'], []] ∧
    ([[']', 'a'], [], ['a'], ['[', 'b', ']'], []] : List (List Char)).flatten ≠
      [']', 'a', '[', 'b', ']'] := by
  constructor
  · decide
  · decide

/-- C1 (amended): for every input on which each iteration of the `split_str`
loop finds the matching closing delimiter at or after the earliest opening
delimiter (`wellDelimited`, which includes the empty string, strings without
special characters, and back-to-back matched tags), the segmenter terminates
and the concatenation of the produced segments, in order, equals the input
exactly. -/
theorem C1_segments_concat (value : List Char) (h : wellDelimited value = true) :
    ∃ segs, SpecialExpressions.split_str value = some segs ∧ segs.flatten = value := by
  by_cases hs : SpecialExpressions.has_special_char value = false
  · exact ⟨[value], by simp [SpecialExpressions.split_str, hs], by simp⟩
  · have hgo := split_go_of_wellDelimitedF (value.length + 1) value h
    rwa [SpecialExpressions.split_str, if_neg hs]

/-- Witness for `C1_segments_concat` at the concrete input `"a[b]c"`. -/
theorem C1_segments_concat_witness :
    wellDelimited ['a', '[', 'b', ']', 'c'] = true ∧
    ∃ segs, SpecialExpressions.split_str ['a', '[', 'b', ']', 'c'] = some segs ∧
      segs.flatten = ['a', '[', 'b', ']', 'c'] :=
  ⟨by decide, C1_segments_concat ['a', '[', 'b', ']', 'c'] (by decide)⟩

/-- C2: on the input `"["`, whose opening delimiter has no matching closing
delimiter anywhere in the string, the `split_str` loop never terminates: for
every amount of fuel the embedded loop is still running (and each iteration
appends an empty segment while leaving the remaining string unchanged, because
`value.find` returns the `-1` sentinel and the slice `value[0:0]` is empty).
The code therefore contradicts the specified policy that the `Tag` segment
extends to the end of the string and segmentation terminates. -/
theorem C2_unmatched_open_diverges :
    SpecialExpressions.split_str ['['] = none ∧ ∀ fuel, split_go fuel ['['] = none := by
  have h : ∀ fuel, split_go fuel ['['] = none := by
    intro fuel
    induction fuel with
    | zero => rfl
    | succ n ih =>
      rw [split_go, if_neg (by decide)]
      rw [show delims_at ['['] = some ('[', ']') from rfl]
      dsimp only
      rw [show strFind ']' ['['] = none from rfl]
      dsimp only
      rw [ih]
  refine ⟨?_, h⟩
  rw [SpecialExpressions.split_str, if_neg (by decide)]
  exact h 2

/-- UTF-8 encoding of one Unicode scalar value, as Python `str.encode('utf-8')`
produces for one character. -/
def utf8EncodeChar (c : Char) : List Nat :=
  let n := c.toNat
  if n < 0x80 then [n]
  else if n < 0x800 then [0xC0 + n / 64, 0x80 + n % 64]
  else if n < 0x10000 then [0xE0 + n / 4096, 0x80 + n / 64 % 64, 0x80 + n % 64]
  else [0xF0 + n / 262144, 0x80 + n / 4096 % 64, 0x80 + n / 64 % 64, 0x80 + n % 64]

/-- Python `text.encode()`: UTF-8 bytes of a string. -/
def utf8Encode (s : List Char) : List Nat := (s.map utf8EncodeChar).flatten

/-- Decoding of one UTF-8 scalar value from head byte `b` and remaining bytes
`rest`: returns the code point and the bytes after it, or `none` for an
ill-formed head sequence.  The conditions are the UTF-8 validation rules
(continuation ranges, no overlong forms, no surrogates, at most U+10FFFF),
which is what CPython's strict decoder enforces. -/
def utf8DecodeStep (b : Nat) (rest : List Nat) : Option (Nat × List Nat) :=
  if b < 0x80 then some (b, rest)
  else if 0xC2 ≤ b ∧ b ≤ 0xDF then
    match rest with
    | c1 :: rest2 =>
      if 0x80 ≤ c1 ∧ c1 ≤ 0xBF then some ((b - 0xC0) * 64 + (c1 - 0x80), rest2) else none
    | [] => none
  else if 0xE0 ≤ b ∧ b ≤ 0xEF then
    match rest with
    | c1 :: c2 :: rest3 =>
      if (0x80 ≤ c1 ∧ c1 ≤ 0xBF) ∧ (b ≠ 0xE0 ∨ 0xA0 ≤ c1) ∧ (b ≠ 0xED ∨ c1 ≤ 0x9F) ∧
          (0x80 ≤ c2 ∧ c2 ≤ 0xBF) then
        some ((b - 0xE0) * 4096 + (c1 - 0x80) * 64 + (c2 - 0x80), rest3)
      else none
    | _ => none
  else if 0xF0 ≤ b ∧ b ≤ 0xF4 then
    match rest with
    | c1 :: c2 :: c3 :: rest4 =>
      if (0x80 ≤ c1 ∧ c1 ≤ 0xBF) ∧ (b ≠ 0xF0 ∨ 0x90 ≤ c1) ∧ (b ≠ 0xF4 ∨ c1 ≤ 0x8F) ∧
          (0x80 ≤ c2 ∧ c2 ≤ 0xBF) ∧ (0x80 ≤ c3 ∧ c3 ≤ 0xBF) then
        some ((b - 0xF0) * 262144 + (c1 - 0x80) * 4096 + (c2 - 0x80) * 64 + (c3 - 0x80), rest4)
      else none
    | _ => none
  else none

/-- Strict UTF-8 decoding loop with fuel; every step consumes at least one
byte, so fuel equal to the byte count always suffices. -/
def utf8DecodeGo : Nat → List Nat → Option (List Char)
  | _, [] => some []
  | 0, _ :: _ => none
  | fuel + 1, b :: rest =>
    match utf8DecodeStep b rest with
    | none => none
    | some p => (utf8DecodeGo fuel p.2).map (fun cs => Char.ofNat p.1 :: cs)

/-- Strict UTF-8 decoding, embedding Python `bytes.decode()`:
`none` embeds a raised `UnicodeDecodeError`. -/
def utf8DecodeList (l : List Nat) : Option (List Char) := utf8DecodeGo l.length l

/-- UTF-8 decoding with Python's `errors='ignore'` handler: an invalid portion
of the byte stream (the maximal subpart of an ill-formed sequence, as in
CPython) is skipped instead of raising.  The `skip` let-bindings name the
continuations that resume decoding after the skipped bytes. -/
def utf8DecodeIgnore : List Nat → List Char
  | [] => []
  | b :: rest =>
    let skip0 := utf8DecodeIgnore rest
    if b < 0x80 then Char.ofNat b :: skip0
    else if 0xC2 ≤ b ∧ b ≤ 0xDF then
      match rest with
      | c1 :: rest2 =>
        let skipNext := utf8DecodeIgnore rest2
        if 0x80 ≤ c1 ∧ c1 ≤ 0xBF then
          Char.ofNat ((b - 0xC0) * 64 + (c1 - 0x80)) :: skipNext
        else skip0
      | [] => []
    else if 0xE0 ≤ b ∧ b ≤ 0xEF then
      match rest with
      | c1 :: rest2 =>
        let skip1 := utf8DecodeIgnore rest2
        if (0x80 ≤ c1 ∧ c1 ≤ 0xBF) ∧ (b ≠ 0xE0 ∨ 0xA0 ≤ c1) ∧ (b ≠ 0xED ∨ c1 ≤ 0x9F) then
          match rest2 with
          | c2 :: rest3 =>
            let skip2 := utf8DecodeIgnore rest3
            if 0x80 ≤ c2 ∧ c2 ≤ 0xBF then
              Char.ofNat ((b - 0xE0) * 4096 + (c1 - 0x80) * 64 + (c2 - 0x80)) :: skip2
            else skip1
          | [] => []
        else skip0
      | [] => []
    else if 0xF0 ≤ b ∧ b ≤ 0xF4 then
      match rest with
      | c1 :: rest2 =>
        let skip1 := utf8DecodeIgnore rest2
        if (0x80 ≤ c1 ∧ c1 ≤ 0xBF) ∧ (b ≠ 0xF0 ∨ 0x90 ≤ c1) ∧ (b ≠ 0xF4 ∨ c1 ≤ 0x8F) then
          match rest2 with
          | c2 :: rest3 =>
            let skip2 := utf8DecodeIgnore rest3
            if 0x80 ≤ c2 ∧ c2 ≤ 0xBF then
              match rest3 with
              | c3 :: rest4 =>
                let skip3 := utf8DecodeIgnore rest4
                if 0x80 ≤ c3 ∧ c3 ≤ 0xBF then
                  Char.ofNat ((b - 0xF0) * 262144 + (c1 - 0x80) * 4096 + (c2 - 0x80) * 64 +
                    (c3 - 0x80)) :: skip3
                else skip2
              | [] => []
            else skip1
          | [] => []
        else skip0
      | [] => []
    else skip0

lemma charOfNat_toNat (c : Char) : Char.ofNat c.toNat = c := by
  have hv : c.toNat.isValidChar := c.valid
  rw [Char.ofNat, dif_pos hv]
  apply Char.eq_of_val_eq
  show UInt32.mk (BitVec.ofNatLt c.toNat _) = c.val
  cases c with
  | mk v hvld =>
    cases v with
    | mk bv =>
      apply congrArg
      apply BitVec.eq_of_toNat_eq
      rfl


lemma utf8DecodeStep_encodeChar (c : Char) (rest : List Nat) :
    ∃ b tl, utf8EncodeChar c = b :: tl ∧ utf8DecodeStep b (tl ++ rest) = some (c.toNat, rest) := by
  have hv : c.toNat < 0xd800 ∨ (0xdfff < c.toNat ∧ c.toNat < 0x110000) := c.valid
  by_cases h1 : c.toNat < 0x80
  · refine ⟨c.toNat, [], by simp only [utf8EncodeChar]; rw [if_pos h1], ?_⟩
    rw [List.nil_append, utf8DecodeStep.eq_def, if_pos h1]
  · by_cases h2 : c.toNat < 0x800
    · refine ⟨0xC0 + c.toNat / 64, [0x80 + c.toNat % 64],
        by simp only [utf8EncodeChar]; rw [if_neg h1, if_pos h2], ?_⟩
      rw [List.cons_append, List.nil_append, utf8DecodeStep.eq_def, if_neg (by omega), if_pos (by omega)]
      dsimp only
      rw [if_pos (by omega)]
      congr 2
      omega
    · by_cases h3 : c.toNat < 0x10000
      · refine ⟨0xE0 + c.toNat / 4096, [0x80 + c.toNat / 64 % 64, 0x80 + c.toNat % 64],
          by simp only [utf8EncodeChar]; rw [if_neg h1, if_neg h2, if_pos h3], ?_⟩
        rw [List.cons_append, List.cons_append, List.nil_append, utf8DecodeStep.eq_def,
          if_neg (by omega), if_neg (by omega), if_pos (by omega)]
        dsimp only
        rw [if_pos (by omega)]
        congr 2
        omega
      · refine ⟨0xF0 + c.toNat / 262144,
          [0x80 + c.toNat / 4096 % 64, 0x80 + c.toNat / 64 % 64, 0x80 + c.toNat % 64],
          by simp only [utf8EncodeChar]; rw [if_neg h1, if_neg h2, if_neg h3], ?_⟩
        rw [List.cons_append, List.cons_append, List.cons_append, List.nil_append,
          utf8DecodeStep.eq_def, if_neg (by omega), if_neg (by omega), if_neg (by omega),
          if_pos (by omega)]
        dsimp only
        rw [if_pos (by omega)]
        congr 2
        omega

lemma utf8DecodeGo_mono (fuel : Nat) : ∀ l cs, utf8DecodeGo fuel l = some cs →
    utf8DecodeGo (fuel + 1) l = some cs := by
  induction fuel with
  | zero =>
    intro l cs h
    cases l with
    | nil => exact h
    | cons b rest => exact absurd h (by simp [utf8DecodeGo])
  | succ n ih =>
    intro l cs h
    cases l with
    | nil => exact h
    | cons b rest =>
      rw [utf8DecodeGo] at h ⊢
      cases hs : utf8DecodeStep b rest with
      | none => rw [hs] at h; simp at h
      | some p =>
        rw [hs] at h
        dsimp only at h ⊢
        cases hg : utf8DecodeGo n p.2 with
        | none => rw [hg] at h; simp at h
        | some cs2 =>
          rw [hg] at h
          rw [ih p.2 cs2 hg]
          exact h

lemma utf8DecodeGo_mono_le {fuel fuel' : Nat} (hle : fuel ≤ fuel') :
    ∀ l cs, utf8DecodeGo fuel l = some cs → utf8DecodeGo fuel' l = some cs := by
  induction fuel', hle using Nat.le_induction with
  | base => exact fun l cs h => h
  | succ m hm ih => exact fun l cs h => utf8DecodeGo_mono m l cs (ih l cs h)

lemma utf8DecodeGo_encode : ∀ s : List Char, ∀ tail fuel cs0,
    utf8DecodeGo fuel tail = some cs0 →
    utf8DecodeGo (s.length + fuel) (utf8Encode s ++ tail) = some (s ++ cs0) := by
  intro s
  induction s with
  | nil => intro tail fuel cs0 h; simpa [utf8Encode] using h
  | cons c cs ih =>
    intro tail fuel cs0 h
    obtain ⟨b, tl, henc, hstep⟩ := utf8DecodeStep_encodeChar c (utf8Encode cs ++ tail)
    have hflat : utf8Encode (c :: cs) = utf8EncodeChar c ++ utf8Encode cs := by
      show (utf8EncodeChar c :: cs.map utf8EncodeChar).flatten = _
      rw [List.flatten_cons]
      rfl
    rw [hflat, henc]
    have hlen : (c :: cs).length + fuel = (cs.length + fuel) + 1 := by
      rw [List.length_cons]; omega
    rw [hlen, List.cons_append, List.cons_append, List.append_assoc, utf8DecodeGo, hstep]
    dsimp only
    rw [ih tail fuel cs0 h]
    simp [charOfNat_toNat]

lemma utf8Encode_length_ge (s : List Char) : s.length ≤ (utf8Encode s).length := by
  induction s with
  | nil => simp [utf8Encode]
  | cons c cs ih =>
    have hc : 0 < (utf8EncodeChar c).length := by
      simp only [utf8EncodeChar]
      split
      · simp
      · split
        · simp
        · split
          · simp
          · simp
    show cs.length + 1 ≤ ((utf8EncodeChar c :: cs.map utf8EncodeChar).flatten).length
    rw [List.flatten_cons, List.length_append]
    have : (cs.map utf8EncodeChar).flatten.length = (utf8Encode cs).length := rfl
    omega

lemma utf8DecodeList_utf8Encode (s : List Char) : utf8DecodeList (utf8Encode s) = some s := by
  have h0 : utf8DecodeGo 0 [] = some [] := rfl
  have h := utf8DecodeGo_encode s [] 0 [] h0
  rw [List.append_nil, List.append_nil] at h
  exact utf8DecodeGo_mono_le (by simpa using utf8Encode_length_ge s) _ _ h

/-- Record of the binary localization container (`@dataclass TranslationUnit`):
`id` and `size` are Python unbounded ints (32-bit on disk), `text` a string. -/
structure TranslationUnit where
  id : Nat
  size : Nat
  text : List Char
deriving DecidableEq, Repr

/-- Property `TranslationUnit.max_size`: the declared size rounded up to the
next multiple of 4. -/
def TranslationUnit.max_size (u : TranslationUnit) : Nat :=
  if u.size % 4 = 0 then u.size else u.size + (4 - u.size % 4)

/-- Python `n.to_bytes(4, byteorder='little')` for `n < 2^32` (for larger `n`
Python raises `OverflowError`; theorems that use this embedding therefore
carry a `< 2^32` hypothesis). -/
def toBytesLE4 (n : Nat) : List Nat :=
  [n % 256, n / 256 % 256, n / 65536 % 256, n / 16777216 % 256]

/-- Python `int.from_bytes(bs, byteorder='little')`, defined for any number of
bytes (including zero, where it returns 0). -/
def fromBytesLE : List Nat → Nat
  | [] => 0
  | b :: bs => b + 256 * fromBytesLE bs

/-- Property `TranslationUnit.bytes`: little-endian `id`, little-endian
`max_size` (the aligned capacity, not the declared size), the UTF-8 text bytes
truncated to `max_size`, and zero padding up to `max_size` (Python's negative
repetition `b'\x00' * k` for `k < 0` is empty, matching truncated
subtraction). -/
def TranslationUnit.bytes (u : TranslationUnit) : List Nat :=
  toBytesLE4 u.id ++ toBytesLE4 u.max_size ++
    (utf8Encode u.text).take u.max_size ++
    List.replicate (u.max_size - (utf8Encode u.text).length) 0

/-- Method `TranslationUnit.replace`: mutates `self.text` from the replacer's
text and reports whether the replacement was applied.  Embedded as a pure
function returning the updated record and the Boolean result. -/
def TranslationUnit.replace (self replacer : TranslationUnit) : TranslationUnit × Bool :=
  let replacer_text_bytes := utf8Encode replacer.text
  if (SpecialExpressions.has_special_char self.text ∨
        SpecialExpressions.has_special_char replacer.text) ∧
      replacer_text_bytes.length > self.max_size then
    (self, false)
  else
    ({ self with text := utf8DecodeIgnore (replacer_text_bytes.take self.max_size) }, true)

/-- Lookup in the `replace_map` dictionary built by `replace_translations`
(later insertions win, as for a Python dict built in iteration order). -/
def replace_map_find (replace_units : List TranslationUnit) (i : Nat) : Option TranslationUnit :=
  replace_units.reverse.find? (fun s => s.id = i)

/-- Outcome of `TranslationUnit.replace_translations`: either the final state
of the original units with the applied-replacement count, or the
mismatched-sector abort (`KeyError` caught, message printed, `exit(1)`), which
carries the state of the original units at the moment of the abort. -/
inductive MergeOutcome where
  | ok (units : List TranslationUnit) (replaced : Nat)
  | mismatched (units : List TranslationUnit)
deriving DecidableEq, Repr

/-- Loop of `TranslationUnit.replace_translations` over the original units:
`acc` is the already-processed (possibly mutated) prefix. -/
def replace_translations_go (replace_units : List TranslationUnit) :
    List TranslationUnit → List TranslationUnit → Nat → MergeOutcome
  | [], acc, cnt => .ok acc cnt
  | o :: rest, acc, cnt =>
    match replace_map_find replace_units o.id with
    | some r =>
      let p := TranslationUnit.replace o r
      replace_translations_go replace_units rest (acc ++ [p.1]) (cnt + (if p.2 then 1 else 0))
    | none => .mismatched (acc ++ o :: rest)

/-- Method `TranslationUnit.replace_translations`: replace original texts from
the identifier-keyed replacement map, aborting with the mismatched-sector exit
when an original id is absent from the map. -/
def TranslationUnit.replace_translations (original_units replace_units : List TranslationUnit) :
    MergeOutcome :=
  replace_translations_go replace_units original_units [] 0

/-- Python `io.BytesIO`: the underlying buffer and the current position. -/
structure ByteStream where
  data : List Nat
  pos : Nat
deriving DecidableEq, Repr

/-- Python `stream.read(n)`: returns up to `n` bytes from the current position
(fewer when the buffer is exhausted, empty past the end) and advances the
position by the number of bytes actually read. -/
def ByteStream.read (s : ByteStream) (n : Nat) : List Nat × ByteStream :=
  let t := (s.data.drop s.pos).take n
  (t, { s with pos := s.pos + t.length })

/-- Result of `BinaryLocalizationParser.parse`: a parsed unit with the
advanced stream, the `EOFError` end-of-stream signal, or a
`UnicodeDecodeError` from decoding the text bytes. -/
inductive ParseResult where
  | ok (u : TranslationUnit) (s : ByteStream)
  | eof
  | decodeError
deriving DecidableEq, Repr

/-- Static method `BinaryLocalizationParser.parse`: reads 4 id bytes (fewer
than 4 available raises `EOFError`), 4 size bytes (`int.from_bytes` accepts
any length), `original_length` text bytes (possibly fewer when the stream is
exhausted) decoded strictly as UTF-8, and skips the alignment padding with a
relative `seek` when the declared length is not already aligned. -/
def BinaryLocalizationParser.parse (bytes_stream : ByteStream) : ParseResult :=
  let r1 := bytes_stream.read 4
  if r1.1.length < 4 then .eof
  else
    let id := fromBytesLE r1.1
    let r2 := r1.2.read 4
    let original_length := fromBytesLE r2.1
    let r3 := r2.2.read original_length
    match utf8DecodeList r3.1 with
    | none => .decodeError
    | some text =>
      let parsed : TranslationUnit := ⟨id, original_length, text⟩
      if original_length < parsed.max_size then
        .ok parsed { r3.2 with pos := r3.2.pos + (4 - original_length % 4) }
      else
        .ok parsed r3.2

/-- Loop of `BinaryLocalizationParser.parse_batch`, with fuel: collects parsed
units until `EOFError`; a `UnicodeDecodeError` is not caught and aborts the
whole batch (`none`).  Every successful parse advances the stream by at least
4 bytes, so fuel `s.data.length + 1` always suffices. -/
def parse_batch_go : Nat → ByteStream → Option (List TranslationUnit)
  | 0, _ => none
  | fuel + 1, s =>
    match BinaryLocalizationParser.parse s with
    | .eof => some []
    | .decodeError => none
    | .ok u s2 => (parse_batch_go fuel s2).map (fun us => u :: us)

/-- Static method `BinaryLocalizationParser.parse_batch` on a fresh stream
over the given bytes. -/
def BinaryLocalizationParser.parse_batch (data : List Nat) : Option (List TranslationUnit) :=
  parse_batch_go (data.length + 1) ⟨data, 0⟩

/-- Result record `TranslationResult`. -/
structure TranslationResult where
  units : List TranslationUnit
  omitted : Nat
deriving DecidableEq, Repr

/-- ASCII fragment of Python `str.isalnum` per character (the source only ever
feeds it strings whose qualification matters for ASCII payloads; the full
Unicode alphanumeric table is outside the embedding). -/
def pyIsAlnumChar (c : Char) : Bool :=
  ('0' ≤ c ∧ c ≤ '9') ∨ ('a' ≤ c ∧ c ≤ 'z') ∨ ('A' ≤ c ∧ c ≤ 'Z')

/-- ASCII fragment of Python `str.isspace` on a whole string: false for the
empty string, true iff every character is whitespace. -/
def pyIsSpace (s : List Char) : Bool :=
  !s.isEmpty && s.all (fun c => c = ' ' ∨ c = '\t' ∨ c = '\n' ∨ c = '\r' ∨
    c = '\x0b' ∨ c = '\x0c')

/-- Helper `contains_at_least_alnum` of `translate`: walks the string counting
alphanumeric characters and returns true as soon as the counter reaches
`occurrences`. -/
def contains_at_least_alnum_go : List Char → Nat → Nat → Bool
  | [], _, _ => false
  | c :: cs, counter, occurrences =>
    let counter2 := if pyIsAlnumChar c then counter + 1 else counter
    if counter2 = occurrences then true else contains_at_least_alnum_go cs counter2 occurrences

/-- Helper `contains_at_least_alnum(string, occurrences)` of `translate`. -/
def contains_at_least_alnum (string : List Char) (occurrences : Nat) : Bool :=
  contains_at_least_alnum_go string 0 occurrences

/-- Helper `into_translation_payload` of `translate`: flattens the per-unit
segment lists and keeps the segments that carry no special character, contain
at least two alphanumeric characters and are not pure whitespace. -/
def into_translation_payload (strings_parted : List (List (List Char))) : List (List Char) :=
  strings_parted.flatten.filter
    (fun string => !SpecialExpressions.has_special_char string &&
      contains_at_least_alnum string 2 && !pyIsSpace string)

/-- Reassembly step of `translate`: the inner `for t in translated` loop over
one segment, replacing it by the translated text whenever it equals an origin
(later matches keep replacing the current value, as in the source). -/
def reassemble_segment (translated : List (List Char × List Char)) (s : List Char) : List Char :=
  translated.foldl (fun cur t => if cur = t.1 then t.2 else cur) s

/-- Join of a unit's segments with single spaces (`' '.join(unit_strings)`). -/
def join_with_space (ss : List (List Char)) : List Char :=
  (ss.intersperse [' ']).flatten

/-- Per-record safety check of `translate` (source lines 274-286): reject the
candidate when its encoded length exceeds the unit's capacity and it carries a
special character (keeping the original, counting one omission); otherwise
accept a new unit whose declared size is the capacity and whose text is the
candidate truncated to `max_size` *characters* (Python `candidate[:max_length]`
is a character slice). -/
def translate_safety (orig : TranslationUnit) (candidate : List Char) :
    TranslationUnit × Nat :=
  if (utf8Encode candidate).length > orig.max_size ∧
      SpecialExpressions.has_special_char candidate then
    (orig, 1)
  else
    (⟨orig.id, orig.max_size, candidate.take orig.max_size⟩, 0)

/-- Segmentation of every unit's text (`strings_parted` in `translate`);
`none` when the segmenter diverges on some text. -/
def translate_split_all (units : List TranslationUnit) : Option (List (List (List Char))) :=
  units.mapM (fun u => SpecialExpressions.split_str u.text)

/-- Candidate strings computed by `translate` before the per-record safety
check: segment all texts, build the payload, call the external translator
(`ft`, the injected `googletrans` capability: for a payload it either fails,
embedding a raised exception, or returns the translations in payload order, so
that origins are exactly the payload strings), replace every segment equal to
an origin by its translation, and join each unit's segments with spaces. -/
def translate_candidates {E : Type} (ft : List (List Char) → Except E (List (List Char)))
    (units : List TranslationUnit) : Option (Except E (List (List Char))) :=
  match translate_split_all units with
  | none => none
  | some strings_parted =>
    let translation_payload := into_translation_payload strings_parted
    match ft translation_payload with
    | .error e => some (.error e)
    | .ok outs =>
      let translated := translation_payload.zip outs
      some (.ok (strings_parted.map
        (fun unit_strings => join_with_space (unit_strings.map (reassemble_segment translated)))))

/-- Static method `TranslationUnit.translate`, parameterized by the external
translation capability `ft`.  The outer `none` embeds divergence of the
segmenter; `Except.error` embeds an exception raised by the external call. -/
def TranslationUnit.translate {E : Type} (ft : List (List Char) → Except E (List (List Char)))
    (original_units : List TranslationUnit) : Option (Except E TranslationResult) :=
  match translate_candidates ft original_units with
  | none => none
  | some (.error e) => some (.error e)
  | some (.ok translated_strings) =>
    let pairs := original_units.zip translated_strings
    some (.ok ⟨pairs.map (fun p => (translate_safety p.1 p.2).1),
      (pairs.map (fun p => (translate_safety p.1 p.2).2)).sum⟩)

/-- Chunking loop of `translate_by_batch`
(`for i in range(0, len(original_units), batch_size)`), with fuel; with a
positive batch size every step consumes at least one element, so fuel equal to
the list length always suffices. -/
def chunkListGo {A : Type} : Nat → Nat → List A → List (List A)
  | _, _, [] => []
  | 0, _, _ :: _ => []
  | fuel + 1, bs, x :: rest => ((x :: rest).take bs) :: chunkListGo fuel bs ((x :: rest).drop bs)

/-- Contiguous chunks `original_units[i:i+batch_size]` visited by
`translate_by_batch` (meaningful for a positive batch size; Python raises
`ValueError` on a zero step, which `translate_by_batch` embeds as `none`). -/
def chunkList {A : Type} (batch_size : Nat) (xs : List A) : List (List A) :=
  chunkListGo xs.length batch_size xs

/-- Loop body of `translate_by_batch` over the chunk list: translate each
chunk strictly in order, concatenating unit lists and adding omission counts;
a failing chunk aborts immediately, pairing the propagated exception with the
offending chunk (the source prints the chunk and re-raises). -/
def translate_by_batch_go {E : Type} (ft : List (List Char) → Except E (List (List Char))) :
    List (List TranslationUnit) → Option (Except (E × List TranslationUnit) TranslationResult)
  | [] => some (.ok ⟨[], 0⟩)
  | c :: cs =>
    match TranslationUnit.translate ft c with
    | none => none
    | some (.error e) => some (.error (e, c))
    | some (.ok r) =>
      match translate_by_batch_go ft cs with
      | none => none
      | some (.error ec) => some (.error ec)
      | some (.ok rrest) => some (.ok ⟨r.units ++ rrest.units, r.omitted + rrest.omitted⟩)

/-- Static method `TranslationUnit.translate_by_batch` (progress reporting is
I/O and is not part of the embedding). -/
def TranslationUnit.translate_by_batch {E : Type}
    (ft : List (List Char) → Except E (List (List Char)))
    (original_units : List TranslationUnit) (batch_size : Nat) :
    Option (Except (E × List TranslationUnit) TranslationResult) :=
  if batch_size = 0 then none
  else translate_by_batch_go ft (chunkList batch_size original_units)

/-- C9: the derived capacity `max_size` equals `declared_size` rounded up to
the next multiple of 4: it is at least `size`, divisible by 4, and less than
`size + 4` (hence the smallest such multiple), and on the concrete sizes 5, 4
and 0 it evaluates to 8, 4 and 0. -/
theorem C9_capacity_alignment :
    (∀ u : TranslationUnit, u.size ≤ u.max_size ∧ 4 ∣ u.max_size ∧ u.max_size < u.size + 4) ∧
    (TranslationUnit.mk 0 5 []).max_size = 8 ∧
    (TranslationUnit.mk 0 4 []).max_size = 4 ∧
    (TranslationUnit.mk 0 0 []).max_size = 0 := by
  refine ⟨fun u => ?_, by decide, by decide, by decide⟩
  unfold TranslationUnit.max_size
  split <;> omega

lemma toBytesLE4_length (n : Nat) : (toBytesLE4 n).length = 4 := rfl

lemma fromBytesLE_toBytesLE4 (n : Nat) (h : n < 4294967296) :
    fromBytesLE (toBytesLE4 n) = n := by
  simp only [toBytesLE4, fromBytesLE]
  omega

/-- C10: for every record whose `id` and aligned capacity fit in 32 bits (as
Python's `to_bytes(4, ...)` requires), the encoded byte form has length
exactly `8 + max_size`, whatever the current text is — the text bytes are
truncated to the capacity and the zero padding never has negative length, so
the encoded length depends only on the capacity, never on the text. -/
theorem C10_bytes_length (u : TranslationUnit) (hid : u.id < 4294967296)
    (hsz : u.max_size < 4294967296) (t2 : List Char) :
    (TranslationUnit.bytes { u with text := t2 }).length = 8 + u.max_size := by
  have hmax : ({ u with text := t2 } : TranslationUnit).max_size = u.max_size := rfl
  simp only [TranslationUnit.bytes, hmax, List.length_append, toBytesLE4_length,
    List.length_take, List.length_replicate]
  omega

/-- Witness for `C10_bytes_length`: a record with declared size 5 (capacity 8)
whose text re-encodes to 10 bytes still encodes to 16 bytes. -/
theorem C10_bytes_length_witness :
    (TranslationUnit.bytes { TranslationUnit.mk 1 5 ['a'] with
      text := ['é', 'é', 'é', 'é', 'é'] }).length = 8 + (TranslationUnit.mk 1 5 ['a']).max_size :=
  C10_bytes_length (TranslationUnit.mk 1 5 ['a']) (by decide) (by decide) _

lemma ByteStream.read_exact (data : List Nat) (p n : Nat) (pre post : List Nat)
    (h : data.drop p = pre ++ post) (hl : pre.length = n) :
    ByteStream.read ⟨data, p⟩ n = (pre, ⟨data, p + n⟩) := by
  have ht : (data.drop p).take n = pre := by rw [h, ← hl, List.take_left]
  simp only [ByteStream.read, ht, hl]

lemma List.drop_after (data pre post : List Nat) (p n : Nat)
    (h : data.drop p = pre ++ post) (hl : pre.length = n) :
    data.drop (p + n) = post := by
  rw [← List.drop_drop n p data, h, ← hl, List.drop_left]

/-- C3 (amended): for a record whose `id` fits in 32 bits, whose declared size
fits in 32 bits and is a multiple of 4, and whose text's UTF-8 encoding has
length exactly the declared size, decoding the encoding yields the identical
record (same id, size and text), with the stream advanced past the record. -/
theorem C3_roundtrip (u : TranslationUnit) (hid : u.id < 4294967296)
    (hsz : u.size < 4294967296) (hal : u.size % 4 = 0)
    (hlen : (utf8Encode u.text).length = u.size) :
    BinaryLocalizationParser.parse ⟨u.bytes, 0⟩ =
      ParseResult.ok u ⟨u.bytes, 8 + u.size⟩ := by
  have hmax : u.max_size = u.size := by
    unfold TranslationUnit.max_size; rw [if_pos hal]
  have hbytes : u.bytes = toBytesLE4 u.id ++ (toBytesLE4 u.size ++ (utf8Encode u.text ++ [])) := by
    unfold TranslationUnit.bytes
    rw [hmax, hlen, Nat.sub_self, List.replicate_zero, ← hlen, List.take_length,
      List.append_assoc, List.append_assoc]
  have hr1 : ByteStream.read ⟨u.bytes, 0⟩ 4 = (toBytesLE4 u.id, ⟨u.bytes, 4⟩) := by
    have := ByteStream.read_exact u.bytes 0 4 (toBytesLE4 u.id)
      (toBytesLE4 u.size ++ (utf8Encode u.text ++ [])) (by rw [List.drop_zero]; exact hbytes)
      (toBytesLE4_length _)
    simpa using this
  have hd4 : u.bytes.drop 4 = toBytesLE4 u.size ++ (utf8Encode u.text ++ []) := by
    have := List.drop_after u.bytes (toBytesLE4 u.id) (toBytesLE4 u.size ++ (utf8Encode u.text ++ []))
      0 4 (by rw [List.drop_zero]; exact hbytes) (toBytesLE4_length u.id)
    simpa using this
  have hr2 : ByteStream.read ⟨u.bytes, 4⟩ 4 = (toBytesLE4 u.size, ⟨u.bytes, 8⟩) := by
    have := ByteStream.read_exact u.bytes 4 4 (toBytesLE4 u.size) (utf8Encode u.text ++ [])
      hd4 (toBytesLE4_length _)
    simpa using this
  have hd8 : u.bytes.drop 8 = utf8Encode u.text ++ [] := by
    have := List.drop_after u.bytes (toBytesLE4 u.size) (utf8Encode u.text ++ [])
      4 4 hd4 (toBytesLE4_length u.size)
    simpa using this
  have hr3 : ByteStream.read ⟨u.bytes, 8⟩ u.size = (utf8Encode u.text, ⟨u.bytes, 8 + u.size⟩) :=
    ByteStream.read_exact u.bytes 8 u.size (utf8Encode u.text) [] hd8 hlen
  simp only [BinaryLocalizationParser.parse, hr1]
  rw [if_neg (by simp [toBytesLE4_length])]
  simp only [fromBytesLE_toBytesLE4 u.id hid, hr2, fromBytesLE_toBytesLE4 u.size hsz, hr3,
    utf8DecodeList_utf8Encode]
  have heta : (⟨u.id, u.size, u.text⟩ : TranslationUnit) = u := rfl
  rw [heta]
  rw [if_neg (by rw [hmax]; omega)]

/-- C3 (counterexample): the record `(id=1, size=4, text="a")` satisfies the
data-model invariant (1 byte of text, capacity 4) and has an aligned declared
size, yet decoding its encoding yields text `"a\x00\x00\x00"`, not `"a"`: the
encoder writes the aligned capacity as the size field, so the decoder reads
the capacity worth of bytes, zero padding included, back as text. -/
theorem C3_counterexample :
    BinaryLocalizationParser.parse ⟨(TranslationUnit.mk 1 4 ['a']).bytes, 0⟩ =
      ParseResult.ok (TranslationUnit.mk 1 4 ['a', '\x00', '\x00', '\x00'])
        ⟨(TranslationUnit.mk 1 4 ['a']).bytes, 12⟩ ∧
    TranslationUnit.mk 1 4 ['a', '\x00', '\x00', '\x00'] ≠ TranslationUnit.mk 1 4 ['a'] := by
  constructor
  · decide
  · decide

/-- Witness for `C3_roundtrip` on the record `(id=1, size=4, text="abcd")`. -/
theorem C3_roundtrip_witness :
    BinaryLocalizationParser.parse ⟨(TranslationUnit.mk 1 4 ['a', 'b', 'c', 'd']).bytes, 0⟩ =
      ParseResult.ok (TranslationUnit.mk 1 4 ['a', 'b', 'c', 'd'])
        ⟨(TranslationUnit.mk 1 4 ['a', 'b', 'c', 'd']).bytes, 8 + 4⟩ :=
  C3_roundtrip (TranslationUnit.mk 1 4 ['a', 'b', 'c', 'd'])
    (by decide) (by decide) (by decide) (by decide)

/-- C6 (amended): `parse` signals `EOFError` (the terminal end-of-stream
condition) exactly when fewer than 4 bytes remain where an id is expected;
when the id header is present, `parse` never fails with a corrupt-input
condition for a partially available record: it reads whatever text bytes
remain and either returns a record or raises `UnicodeDecodeError` when those
bytes are not valid UTF-8. -/
theorem C6_eof_iff_short_header (s : ByteStream) :
    (BinaryLocalizationParser.parse s = ParseResult.eof ↔ (s.data.drop s.pos).length < 4) ∧
    (4 ≤ (s.data.drop s.pos).length →
      (∃ u s2, BinaryLocalizationParser.parse s = ParseResult.ok u s2) ∨
        BinaryLocalizationParser.parse s = ParseResult.decodeError) := by
  by_cases h4 : (s.data.drop s.pos).length < 4
  · have heof : BinaryLocalizationParser.parse s = ParseResult.eof := by
      simp only [BinaryLocalizationParser.parse, ByteStream.read]
      rw [if_pos (by simp only [List.length_take]; omega)]
    exact ⟨iff_of_true heof h4, fun hge => absurd hge (by omega)⟩
  · have hmain : (∃ u s2, BinaryLocalizationParser.parse s = ParseResult.ok u s2) ∨
        BinaryLocalizationParser.parse s = ParseResult.decodeError := by
      simp only [BinaryLocalizationParser.parse, ByteStream.read]
      rw [if_neg (by simp only [List.length_take]; omega)]
      split
      · exact Or.inr rfl
      · split
        · exact Or.inl ⟨_, _, rfl⟩
        · exact Or.inl ⟨_, _, rfl⟩
    refine ⟨⟨fun heq => ?_, fun hlt => absurd hlt h4⟩, fun _ => hmain⟩
    rcases hmain with ⟨u, s2, hok⟩ | herr
    · rw [hok] at heq; exact absurd heq (by simp)
    · rw [herr] at heq; exact absurd heq (by simp)

/-- C6 (counterexample): on the 8-byte stream `id=1, size=5` with no text
bytes at all (header present, declared body absent), `parse` does not fail:
it reads zero text bytes, decodes them to the empty string and returns the
record `(1, 5, "")`, seeking past the end of the stream.  There is no
corrupt-input condition anywhere in the parser. -/
theorem C6_counterexample :
    BinaryLocalizationParser.parse ⟨[1, 0, 0, 0, 5, 0, 0, 0], 0⟩ =
      ParseResult.ok (TranslationUnit.mk 1 5 []) ⟨[1, 0, 0, 0, 5, 0, 0, 0], 11⟩ := by
  decide

/-- Witness for `C6_eof_iff_short_header` at the stream of
`C6_counterexample`. -/
theorem C6_eof_iff_short_header_witness :
    (∃ u s2, BinaryLocalizationParser.parse ⟨[1, 0, 0, 0, 5, 0, 0, 0], 0⟩ =
        ParseResult.ok u s2) ∨
      BinaryLocalizationParser.parse ⟨[1, 0, 0, 0, 5, 0, 0, 0], 0⟩ = ParseResult.decodeError :=
  (C6_eof_iff_short_header ⟨[1, 0, 0, 0, 5, 0, 0, 0], 0⟩).2 (by decide)

/-- The 24-byte sector window of the end-to-end test: record
`(id=1, size=2, text="hi")` (2 text bytes + 2 padding bytes) followed by
`(id=2, size=3, text="cat")` (3 text bytes + 1 padding byte). -/
def c7window : List Nat :=
  [1, 0, 0, 0, 2, 0, 0, 0, 0x68, 0x69, 0, 0,
   2, 0, 0, 0, 3, 0, 0, 0, 0x63, 0x61, 0x74, 0]

/-- C7 (counterexample): the window decodes to the two expected records, but
re-encoding them does not reproduce the original window: the encoder writes
the aligned capacity 4 into both size fields where the window holds 2 and 3. -/
theorem C7_counterexample :
    BinaryLocalizationParser.parse_batch c7window =
      some [TranslationUnit.mk 1 2 ['h', 'i'], TranslationUnit.mk 2 3 ['c', 'a', 't']] ∧
    ([TranslationUnit.mk 1 2 ['h', 'i'], TranslationUnit.mk 2 3 ['c', 'a', 't']].map
      TranslationUnit.bytes).flatten ≠ c7window := by
  constructor
  · decide
  · decide

/-- C7 (amended): the window decodes to `[(1,2,"hi"), (2,3,"cat")]` in order,
and re-encoding those two records reproduces the window except that both size
fields now hold the aligned capacity 4 (bytes 4 and 16 change from 2 and 3 to
4); text bytes and padding are reproduced exactly. -/
theorem C7_end_to_end :
    BinaryLocalizationParser.parse_batch c7window =
      some [TranslationUnit.mk 1 2 ['h', 'i'], TranslationUnit.mk 2 3 ['c', 'a', 't']] ∧
    ([TranslationUnit.mk 1 2 ['h', 'i'], TranslationUnit.mk 2 3 ['c', 'a', 't']].map
      TranslationUnit.bytes).flatten =
      [1, 0, 0, 0, 4, 0, 0, 0, 0x68, 0x69, 0, 0,
       2, 0, 0, 0, 4, 0, 0, 0, 0x63, 0x61, 0x74, 0] := by
  constructor
  · decide
  · decide

/-- Effect of the merge loop on one original unit whose id is found in the
replacement map: the (possibly rejected, hence unchanged) result of
`TranslationUnit.replace`. -/
def merge_process_one (replace_units : List TranslationUnit) (o : TranslationUnit) :
    TranslationUnit :=
  match replace_map_find replace_units o.id with
  | some r => (TranslationUnit.replace o r).1
  | none => o

lemma replace_translations_go_missing (replace_units : List TranslationUnit) :
    ∀ pending acc cnt, (∃ o ∈ pending, replace_map_find replace_units o.id = none) →
    ∃ pre o suf, pending = pre ++ o :: suf ∧
      (∀ p ∈ pre, (replace_map_find replace_units p.id).isSome) ∧
      replace_map_find replace_units o.id = none ∧
      replace_translations_go replace_units pending acc cnt =
        MergeOutcome.mismatched (acc ++ (pre.map (merge_process_one replace_units) ++ o :: suf)) := by
  intro pending
  induction pending with
  | nil => intro acc cnt h; simp at h
  | cons o0 rest ih =>
    intro acc cnt h
    cases hf : replace_map_find replace_units o0.id with
    | none =>
      refine ⟨[], o0, rest, rfl, by simp, hf, ?_⟩
      rw [replace_translations_go, hf]
      simp
    | some r =>
      have hrest : ∃ o ∈ rest, replace_map_find replace_units o.id = none := by
        rcases h with ⟨o, hmem, hno⟩
        rcases List.mem_cons.mp hmem with rfl | hmem2
        · rw [hf] at hno; cases hno
        · exact ⟨o, hmem2, hno⟩
      obtain ⟨pre, o, suf, hdec, hpre, hno, hgo⟩ :=
        ih (acc ++ [(TranslationUnit.replace o0 r).1])
          (cnt + (if (TranslationUnit.replace o0 r).2 then 1 else 0)) hrest
      refine ⟨o0 :: pre, o, suf, by rw [hdec, List.cons_append], ?_, hno, ?_⟩
      · intro p hp
        rcases List.mem_cons.mp hp with rfl | hp2
        · rw [hf]; rfl
        · exact hpre p hp2
      · rw [replace_translations_go, hf]
        dsimp only
        rw [hgo]
        have hone : merge_process_one replace_units o0 = (TranslationUnit.replace o0 r).1 := by
          unfold merge_process_one; rw [hf]
        rw [List.map_cons, hone]
        simp

/-- C4 (amended): when some original unit's id is absent from the replacement
map, the merge aborts with the mismatched-sector condition at the FIRST such
unit: that unit and every later unit keep their pre-merge state, while every
earlier unit has already been processed by `replace` (and so may already have
been mutated when the abort happens). -/
theorem C4_abort_at_first_missing (original_units replace_units : List TranslationUnit)
    (h : ∃ o ∈ original_units, replace_map_find replace_units o.id = none) :
    ∃ pre o suf, original_units = pre ++ o :: suf ∧
      (∀ p ∈ pre, (replace_map_find replace_units p.id).isSome) ∧
      replace_map_find replace_units o.id = none ∧
      TranslationUnit.replace_translations original_units replace_units =
        MergeOutcome.mismatched (pre.map (merge_process_one replace_units) ++ o :: suf) := by
  obtain ⟨pre, o, suf, hdec, hpre, hno, hgo⟩ :=
    replace_translations_go_missing replace_units original_units [] 0 h
  exact ⟨pre, o, suf, hdec, hpre, hno, by
    rw [TranslationUnit.replace_translations, hgo, List.nil_append]⟩

/-- C4 (counterexample): merging base records `(1, 4, "abcd"), (2, 4, "efgh")`
with the replacement set `[(1, 4, "xy")]` (id 2 absent) aborts with the
mismatched-sector condition, but only after the first base record has already
been mutated to text `"xy"` — the abort does not happen before any base record
is changed. -/
theorem C4_counterexample :
    TranslationUnit.replace_translations
      [TranslationUnit.mk 1 4 ['a', 'b', 'c', 'd'], TranslationUnit.mk 2 4 ['e', 'f', 'g', 'h']]
      [TranslationUnit.mk 1 4 ['x', 'y']] =
    MergeOutcome.mismatched
      [TranslationUnit.mk 1 4 ['x', 'y'], TranslationUnit.mk 2 4 ['e', 'f', 'g', 'h']] ∧
    (['x', 'y'] : List Char) ≠ ['a', 'b', 'c', 'd'] := by
  constructor
  · decide
  · decide

/-- Witness for `C4_abort_at_first_missing` on the inputs of
`C4_counterexample`. -/
theorem C4_abort_at_first_missing_witness :
    ∃ pre o suf,
      ([TranslationUnit.mk 1 4 ['a', 'b', 'c', 'd'],
        TranslationUnit.mk 2 4 ['e', 'f', 'g', 'h']] : List TranslationUnit) =
        pre ++ o :: suf ∧
      (∀ p ∈ pre, (replace_map_find [TranslationUnit.mk 1 4 ['x', 'y']] p.id).isSome) ∧
      replace_map_find [TranslationUnit.mk 1 4 ['x', 'y']] o.id = none ∧
      TranslationUnit.replace_translations
        [TranslationUnit.mk 1 4 ['a', 'b', 'c', 'd'], TranslationUnit.mk 2 4 ['e', 'f', 'g', 'h']]
        [TranslationUnit.mk 1 4 ['x', 'y']] =
        MergeOutcome.mismatched
          (pre.map (merge_process_one [TranslationUnit.mk 1 4 ['x', 'y']]) ++ o :: suf) :=
  C4_abort_at_first_missing
    [TranslationUnit.mk 1 4 ['a', 'b', 'c', 'd'], TranslationUnit.mk 2 4 ['e', 'f', 'g', 'h']]
    [TranslationUnit.mk 1 4 ['x', 'y']]
    ⟨TranslationUnit.mk 2 4 ['e', 'f', 'g', 'h'], by decide, by decide⟩

/-- C5 (counterexample): translating the record `(1, 4, "ab")` (capacity 4)
with a translator that maps `"ab"` to `"éééé"` ACCEPTS the candidate even
though its UTF-8 encoding is 8 bytes: the safety check only rejects
special-character candidates, and the accepted text is the candidate truncated
to 4 *characters*, whose encoding still has 8 bytes — so an accepted record
can violate `len(utf8(text)) <= capacity`, and truncation is not byte-wise. -/
theorem C5_counterexample :
    TranslationUnit.translate
      (fun payload => (Except.ok (payload.map
        (fun s => if s = ['a', 'b'] then ['é', 'é', 'é', 'é'] else s)) :
          Except Unit (List (List Char))))
      [TranslationUnit.mk 1 4 ['a', 'b']] =
      some (Except.ok ⟨[TranslationUnit.mk 1 4 ['é', 'é', 'é', 'é']], 0⟩) ∧
    (utf8Encode ['é', 'é', 'é', 'é']).length = 8 ∧
    (TranslationUnit.mk 1 4 ['é', 'é', 'é', 'é']).max_size = 4 := by
  refine ⟨rfl, by decide, by decide⟩

lemma sum_indicator_eq_length_filter {A : Type} (q : A → Prop) [DecidablePred q] (l : List A) :
    (l.map (fun a => if q a then 1 else 0)).sum = (l.filter (fun a => decide (q a))).length := by
  induction l with
  | nil => rfl
  | cons a t ih => by_cases h : q a <;> simp [h, ih] <;> omega

/-- C5 (amended): whenever `translate` completes with candidate strings
`cands`, a record is rejected (kept identical, one omission counted) exactly
when the candidate's UTF-8 byte length exceeds the record's capacity AND the
candidate contains a special delimiter character; otherwise the record is
accepted with the candidate truncated to capacity *characters* (not bytes).
Moreover a record with capacity 4 and text `"[x]"` never reaches the
translator (its segments are filtered out of the payload), always receives the
4-byte candidate `"[x] "` from the space-join, and is accepted with text
`"[x] "` and no omission. -/
theorem C5_safety_check {E : Type} (ft : List (List Char) → Except E (List (List Char)))
    (units : List TranslationUnit) (cands : List (List Char)) (res : TranslationResult)
    (hc : translate_candidates ft units = some (Except.ok cands))
    (hr : TranslationUnit.translate ft units = some (Except.ok res)) :
    (res.units = (units.zip cands).map (fun p =>
      if (utf8Encode p.2).length > p.1.max_size ∧
          SpecialExpressions.has_special_char p.2 then p.1
      else ⟨p.1.id, p.1.max_size, p.2.take p.1.max_size⟩) ∧
    res.omitted = ((units.zip cands).filter (fun p =>
      decide ((utf8Encode p.2).length > p.1.max_size ∧
        SpecialExpressions.has_special_char p.2 = true))).length) ∧
    (∀ (E2 : Type) (ft2 : List (List Char) → Except E2 (List (List Char)))
      (outs : List (List Char)) (id2 sz : Nat),
      ft2 [] = Except.ok outs → 0 < sz → sz ≤ 4 →
      TranslationUnit.translate ft2 [TranslationUnit.mk id2 sz ['[', 'x', ']']] =
        some (Except.ok ⟨[TranslationUnit.mk id2 4 ['[', 'x', ']', ' ']], 0⟩)) := by
  constructor
  · rw [TranslationUnit.translate, hc] at hr
    dsimp only at hr
    have hres : res = ⟨(units.zip cands).map (fun p => (translate_safety p.1 p.2).1),
        ((units.zip cands).map (fun p => (translate_safety p.1 p.2).2)).sum⟩ := by
      cases hr' : hr.symm
      rfl
    subst hres
    constructor
    · dsimp only
      apply List.map_congr_left
      intro p _
      unfold translate_safety
      split
      · rfl
      · rfl
    · dsimp only
      rw [show (fun p : TranslationUnit × List Char => (translate_safety p.1 p.2).2) =
          (fun p : TranslationUnit × List Char =>
            if (utf8Encode p.2).length > p.1.max_size ∧
              SpecialExpressions.has_special_char p.2 = true then 1 else 0) from ?_]
      · exact sum_indicator_eq_length_filter _ _
      · funext p
        unfold translate_safety
        split
        · rfl
        · rfl
  · intro E2 ft2 outs id2 sz hft2 hpos hle
    have hmax : (TranslationUnit.mk id2 sz ['[', 'x', ']']).max_size = 4 := by
      unfold TranslationUnit.max_size
      dsimp only
      split <;> omega
    have hsplit : translate_split_all [TranslationUnit.mk id2 sz ['[', 'x', ']']] =
        some [[['[', 'x', ']'], []]] := rfl
    have hcand : translate_candidates ft2 [TranslationUnit.mk id2 sz ['[', 'x', ']']] =
        some (Except.ok [['[', 'x', ']', ' ']]) := by
      rw [translate_candidates, hsplit]
      dsimp only
      rw [show into_translation_payload [[['[', 'x', ']'], []]] = [] from rfl, hft2]
      rfl
    rw [TranslationUnit.translate, hcand]
    dsimp only
    have hsafe : translate_safety (TranslationUnit.mk id2 sz ['[', 'x', ']']) ['[', 'x', ']', ' '] =
        (TranslationUnit.mk id2 4 ['[', 'x', ']', ' '], 0) := by
      unfold translate_safety
      rw [if_neg (by rw [hmax]; intro hcon; exact absurd hcon.1 (by decide))]
      rw [hmax]
      rfl
    show some (Except.ok
      (⟨[(translate_safety (TranslationUnit.mk id2 sz ['[', 'x', ']']) ['[', 'x', ']', ' ']).1],
        [(translate_safety (TranslationUnit.mk id2 sz ['[', 'x', ']']) ['[', 'x', ']', ' ']).2].sum⟩
        : TranslationResult))
      = _
    rw [hsafe]
    rfl

/-- Identity external translator used by the `C5_safety_check` witness. -/
def c5ftId : List (List Char) → Except Unit (List (List Char)) := fun p => Except.ok p

/-- Units of the `C5_safety_check` witness. -/
def c5units : List TranslationUnit := [TranslationUnit.mk 1 4 ['a', 'b']]

/-- Candidate strings of the `C5_safety_check` witness. -/
def c5cands : List (List Char) := [['a', 'b']]

/-- Result record of the `C5_safety_check` witness. -/
def c5res : TranslationResult := ⟨[TranslationUnit.mk 1 4 ['a', 'b']], 0⟩

/-- Witness for `C5_safety_check` with an identity translator on `(1,4,"ab")`. -/
theorem C5_safety_check_witness :
    (c5res.units = (c5units.zip c5cands).map (fun p =>
      if (utf8Encode p.2).length > p.1.max_size ∧
          SpecialExpressions.has_special_char p.2 then p.1
      else ⟨p.1.id, p.1.max_size, p.2.take p.1.max_size⟩) ∧
    c5res.omitted = ((c5units.zip c5cands).filter (fun p =>
      decide ((utf8Encode p.2).length > p.1.max_size ∧
        SpecialExpressions.has_special_char p.2 = true))).length) ∧
    (∀ (E2 : Type) (ft2 : List (List Char) → Except E2 (List (List Char)))
      (outs : List (List Char)) (id2 sz : Nat),
      ft2 [] = Except.ok outs → 0 < sz → sz ≤ 4 →
      TranslationUnit.translate ft2 [TranslationUnit.mk id2 sz ['[', 'x', ']']] =
        some (Except.ok ⟨[TranslationUnit.mk id2 4 ['[', 'x', ']', ' ']], 0⟩)) :=
  C5_safety_check c5ftId c5units c5cands c5res rfl rfl

lemma translate_by_batch_go_error {E : Type}
    (ft : List (List Char) → Except E (List (List Char))) (e : E)
    (c : List TranslationUnit) (post : List (List TranslationUnit)) :
    ∀ pre, (∀ p ∈ pre, ∃ r, TranslationUnit.translate ft p = some (Except.ok r)) →
    TranslationUnit.translate ft c = some (Except.error e) →
    translate_by_batch_go ft (pre ++ c :: post) = some (Except.error (e, c)) := by
  intro pre
  induction pre with
  | nil =>
    intro _ hfail
    rw [List.nil_append, translate_by_batch_go, hfail]
  | cons p ps ih =>
    intro hok hfail
    obtain ⟨r, hr⟩ := hok p (List.mem_cons_self p ps)
    rw [List.cons_append, translate_by_batch_go, hr]
    dsimp only
    rw [ih (fun q hq => hok q (List.mem_cons_of_mem p hq)) hfail]

/-- C8: `translate_by_batch` is fail-fast: when the chunking of the input
yields a sequence of chunks in which every chunk before `c` translates
successfully and the translate call for `c` fails with exception `e`, the
whole operation fails immediately, returning the propagated exception paired
with the offending chunk's records — no `TranslationResult` is produced and
the results of the previously completed chunks are discarded. -/
theorem C8_fail_fast {E : Type} (ft : List (List Char) → Except E (List (List Char)))
    (units : List TranslationUnit) (batch_size : Nat)
    (pre : List (List TranslationUnit)) (c : List TranslationUnit)
    (post : List (List TranslationUnit)) (e : E)
    (hbs : batch_size ≠ 0)
    (hdec : chunkList batch_size units = pre ++ c :: post)
    (hok : ∀ p ∈ pre, ∃ r, TranslationUnit.translate ft p = some (Except.ok r))
    (hfail : TranslationUnit.translate ft c = some (Except.error e)) :
    TranslationUnit.translate_by_batch ft units batch_size = some (Except.error (e, c)) := by
  rw [TranslationUnit.translate_by_batch, if_neg hbs, hdec]
  exact translate_by_batch_go_error ft e c post pre hok hfail

/-- Witness for `C8_fail_fast` with an always-failing translator on a single
chunk. -/
theorem C8_fail_fast_witness :
    TranslationUnit.translate_by_batch
      (fun _ => (Except.error 0 : Except Nat (List (List Char))))
      [TranslationUnit.mk 1 4 ['a', 'b']] 1 =
      some (Except.error (0, [TranslationUnit.mk 1 4 ['a', 'b']])) :=
  C8_fail_fast (fun _ => (Except.error 0 : Except Nat (List (List Char))))
    [TranslationUnit.mk 1 4 ['a', 'b']] 1 [] [TranslationUnit.mk 1 4 ['a', 'b']] [] 0
    (by decide) rfl (by simp) rfl
